import Mathlib

/-!
Shallow embedding of the scheduler + resource-arbitration core of
`src/os-pa2-main/pa2.c` (a discrete-time single-CPU scheduling simulator).

Processes are modelled as records; the intrusive linked lists of the C code
(`readyqueue`, each resource's `waitqueue`) become Lean lists of process
records, with in-place pointer mutation rendered as explicit list updates.
`list_del_init(&p->list)` on the node found at position `i` becomes
`List.eraseIdx i`.  Machine `unsigned int` values are modelled as `Nat`
(`UINT_MAX` is kept as the literal sentinel the code uses; the subtraction
`lifespan - age` is `Nat` truncated subtraction, which agrees with the C
unsigned subtraction on the `age ≤ lifespan` states the simulator produces).
The `assert(...)` calls of the C code are rendered as `Option`-returning
functions: `none` models the aborted (or undefined-behaviour) executions.
`MAX_PRIO` is a configuration constant taken from a header that is not part
of the sources; following its use it is passed as an explicit parameter `M`.
-/

namespace Pa2

/-- Process status, from `process.h` as used by `pa2.c`
(READY / RUNNING / BLOCKED / TERMINATED). -/
inductive Status where
  | ready
  | running
  | blocked
  | terminated
deriving DecidableEq, Repr

/-- `struct process`: the fields `pa2.c` reads or writes
(`pid`, `status`, `age`, `lifespan`, `prio`, `prio_orig`). -/
structure Process where
  pid : Nat
  status : Status
  age : Nat
  lifespan : Nat
  prio : Nat
  prio_orig : Nat
deriving DecidableEq, Repr

/-- `struct resource`: exclusive owner (if any) plus the ordered wait queue
of blocked processes. -/
structure Resource where
  owner : Option Process
  waitqueue : List Process
deriving DecidableEq, Repr

/-- Scheduler-visible state: the global `current` pointer and the global
`readyqueue` list. -/
structure SchedState where
  current : Option Process
  readyqueue : List Process
deriving DecidableEq, Repr

/-- `UINT_MAX`, the sentinel the scans in `pa2.c` start their running
minimum from. -/
def UINT_MAX : Nat := 4294967295

/-! ## Default FCFS resource protocol -/

/-- `fcfs_acquire` (pa2.c lines 60-85): take the resource if unowned,
otherwise block the caller and append it to the wait queue.
Returns (grant flag, updated caller, updated resource). -/
def fcfs_acquire (cur : Process) (r : Resource) : Bool × Process × Resource :=
  match r.owner with
  | none => (true, cur, { r with owner := some cur })
  | some _ =>
    let cur' := { cur with status := Status.blocked }
    (false, cur', { r with waitqueue := r.waitqueue ++ [cur'] })

/-- `fcfs_release` (pa2.c lines 96-133): assert the caller owns the
resource, clear ownership, and if the wait queue is non-empty wake its
first (earliest-inserted) member: assert it is BLOCKED, remove it, mark it
READY and append it to the ready-queue tail.  `none` models a failed
`assert`.  Result: (caller, updated resource, updated ready queue). -/
def fcfs_release (cur : Process) (r : Resource) (rq : List Process) :
    Option (Process × Resource × List Process) :=
  if r.owner = some cur then
    match r.waitqueue with
    | [] => some (cur, { r with owner := none }, rq)
    | w :: ws =>
      if w.status = Status.blocked then
        some (cur, { r with owner := none, waitqueue := ws },
              rq ++ [{ w with status := Status.ready }])
      else none
  else none

/-! ## FCFS scheduler -/

/-- The `pick_next` tail of `fcfs_schedule`: pop the head of the ready
queue (or return no process when it is empty). -/
def fcfsPickNext (rq : List Process) : SchedState :=
  match rq with
  | [] => ⟨none, []⟩
  | p :: rest => ⟨some p, rest⟩

/-- `fcfs_schedule` (pa2.c lines 149-195): keep the current process while
it exists, is not BLOCKED and has remaining lifetime; otherwise pop the
head of the ready queue. -/
def fcfs_schedule (s : SchedState) : SchedState :=
  match s.current with
  | none => fcfsPickNext s.readyqueue
  | some cur =>
    if cur.status = Status.blocked then fcfsPickNext s.readyqueue
    else if cur.age < cur.lifespan then ⟨some cur, s.readyqueue⟩
    else fcfsPickNext s.readyqueue

/-! ## STCF scheduler -/

/-- The scan of the preemption branch of `stcf_schedule`
(pa2.c lines 271-281), transcribed exactly: the comparison uses
`tmp->lifespan - tmp->age < min` but the running minimum is then updated
with `min = tmp->lifespan` (not the remaining time).  Returns the chosen
candidate with its queue index, and the final `min`. -/
def stcfScanB (todo : List Process) (min : Nat) (best : Option (Process × Nat))
    (k : Nat) : Option (Process × Nat) × Nat :=
  match todo with
  | [] => (best, min)
  | t :: rest =>
    if t.lifespan - t.age < min then
      stcfScanB rest t.lifespan (some (t, k)) (k + 1)
    else
      stcfScanB rest min best (k + 1)

/-- The scan of the `pick_next` branch of `stcf_schedule`
(pa2.c lines 307-317): running minimum of the remaining time
`lifespan - age`, earliest minimiser kept. -/
def stcfScan (todo : List Process) (min : Nat) (best : Option (Process × Nat))
    (k : Nat) : Option (Process × Nat) :=
  match todo with
  | [] => best
  | t :: rest =>
    if t.lifespan - t.age < min then
      stcfScan rest (t.lifespan - t.age) (some (t, k)) (k + 1)
    else
      stcfScan rest min best (k + 1)

/-- The `pick_next` tail of `stcf_schedule` (pa2.c lines 304-324). -/
def stcfPickNext (s : SchedState) : SchedState :=
  match s.readyqueue with
  | [] => ⟨none, s.readyqueue⟩
  | _ :: _ =>
    match stcfScan s.readyqueue UINT_MAX none 0 with
    | some (p, i) => ⟨some p, s.readyqueue.eraseIdx i⟩
    | none => ⟨none, s.readyqueue⟩

/-- `stcf_schedule` (pa2.c lines 258-325).  When the current process is
live and the ready queue non-empty, the preemption branch runs `stcfScanB`
and preempts exactly when `current->lifespan - current->age > min`,
appending the current process to the ready-queue tail before detaching the
candidate.  (The `none` candidate sub-case of the preemption branch is
unreachable: `min < UINT_MAX` forces a candidate.) -/
def stcf_schedule (s : SchedState) : SchedState :=
  match s.current with
  | none => stcfPickNext s
  | some cur =>
    if cur.status = Status.blocked then stcfPickNext s
    else if cur.age < cur.lifespan then
      match s.readyqueue with
      | [] => ⟨some cur, s.readyqueue⟩
      | _ :: _ =>
        let out := stcfScanB s.readyqueue UINT_MAX none 0
        if out.2 < cur.lifespan - cur.age then
          match out.1 with
          | some (p, i) => ⟨some p, (s.readyqueue ++ [cur]).eraseIdx i⟩
          | none => ⟨none, s.readyqueue ++ [cur]⟩
        else ⟨some cur, s.readyqueue⟩
    else if cur.age = cur.lifespan then stcfPickNext s
    else ⟨none, s.readyqueue⟩

/-! ## Round-Robin, Priority and Priority+Aging schedulers -/

/-- The common prologue of `rr_schedule`, `prio_schedule` and
`pa_schedule` (pa2.c lines 347-355, 422-430, 466-474, identical text):
if the current process exists, is not BLOCKED and has remaining lifetime it
is appended to the ready-queue tail; the resulting queue is what the pick
step scans. -/
def requeuedReady (s : SchedState) : List Process :=
  match s.current with
  | none => s.readyqueue
  | some cur =>
    if cur.status = Status.blocked then s.readyqueue
    else if cur.age < cur.lifespan then s.readyqueue ++ [cur]
    else s.readyqueue

/-- `rr_schedule` (pa2.c lines 343-364): requeue the still-runnable
current process, then pop the head of the ready queue. -/
def rr_schedule (s : SchedState) : SchedState :=
  match requeuedReady s with
  | [] => ⟨none, []⟩
  | p :: rest => ⟨some p, rest⟩

/-- The pick scan of `prio_schedule` (pa2.c lines 433-445): running
maximum starting at 0, updated on `tmp->prio >= max`, so an element with
priority equal to the running maximum replaces the candidate. -/
def prioScanAux (todo : List Process) (max : Nat) (best : Option (Process × Nat))
    (k : Nat) : Option (Process × Nat) :=
  match todo with
  | [] => best
  | t :: rest =>
    if max ≤ t.prio then prioScanAux rest t.prio (some (t, k)) (k + 1)
    else prioScanAux rest max best (k + 1)

/-- `prio_schedule` (pa2.c lines 418-449): requeue the still-runnable
current process, scan the ready queue with `prioScanAux`, detach and
return the chosen process. -/
def prio_schedule (s : SchedState) : SchedState :=
  match prioScanAux (requeuedReady s) 0 none 0 with
  | some (p, i) => ⟨some p, (requeuedReady s).eraseIdx i⟩
  | none => ⟨none, requeuedReady s⟩

/-- The scan of `pa_schedule` (pa2.c lines 483-491), `M` standing for
`MAX_PRIO`: every scanned process first gets `tmp->prio++` (unconditionally
and unboundedly); it becomes the candidate when the incremented priority is
both `> max` and `< MAX_PRIO`.  `acc` accumulates the queue as mutated so
far; a chosen candidate is recorded with its position in `acc`. -/
def paScanAux (M : Nat) (todo : List Process) (max : Nat) (acc : List Process)
    (best : Option (Process × Nat)) : List Process × Option (Process × Nat) :=
  match todo with
  | [] => (acc, best)
  | t :: rest =>
    let t' := { t with prio := t.prio + 1 }
    if max < t'.prio ∧ t'.prio < M then
      paScanAux M rest t'.prio (acc ++ [t']) (some (t', acc.length))
    else
      paScanAux M rest max (acc ++ [t']) best

/-- `pa_schedule` (pa2.c lines 461-496): requeue, age every ready-queue
member by one priority point, pick by the guarded running maximum, then
`next->prio = next->prio_orig` and `list_del_init(&next->list)`.  When the
queue is non-empty but no candidate satisfied the guard, `next` is still
`NULL` and the C code dereferences it: that execution is modelled as
`none`. -/
def pa_schedule (M : Nat) (s : SchedState) : Option SchedState :=
  match requeuedReady s with
  | [] => some ⟨none, []⟩
  | t :: rest =>
    let out := paScanAux M (t :: rest) 0 [] none
    match out.2 with
    | none => none
    | some (p, i) =>
      let p' := { p with prio := p.prio_orig }
      some ⟨some p', (out.1.set i p').eraseIdx i⟩

/-! ## Priority-Ceiling Protocol -/

/-- `pcp_acquire` (pa2.c lines 511-525), `M` standing for `MAX_PRIO`:
on a free resource take ownership and set the owner's priority to
`MAX_PRIO`; on a taken resource block and append to the wait queue.
Since `r->owner = current` aliases the caller, the elevated record is
returned both as the caller and as the stored owner. -/
def pcp_acquire (M : Nat) (cur : Process) (r : Resource) :
    Bool × Process × Resource :=
  match r.owner with
  | none =>
    let cur' := { cur with prio := M }
    (true, cur', { r with owner := some cur' })
  | some _ =>
    let cur' := { cur with status := Status.blocked }
    (false, cur', { r with waitqueue := r.waitqueue ++ [cur'] })

/-- The wait-queue scan of `pcp_release` (pa2.c lines 538-547): `waiter`
starts at the head; whenever `tmp->prio > waiter->prio` the candidate is
replaced by `tmp` and, at that moment, `waiter->prio = waiter->prio_orig`
resets the new candidate's priority in place (visible to later
comparisons and, if it is later superseded, left behind in the queue).
`done` is the queue as mutated so far, `w` the current candidate, `i` its
position in `done`. -/
def pcpRelScanAux (todo : List Process) (done : List Process) (w : Process)
    (i : Nat) : List Process × Process × Nat :=
  match todo with
  | [] => (done, w, i)
  | t :: rest =>
    if w.prio < t.prio then
      let t' := { t with prio := t.prio_orig }
      pcpRelScanAux rest (done ++ [t']) t' done.length
    else
      pcpRelScanAux rest (done ++ [t]) w i

/-- `pcp_release` (pa2.c lines 527-554): assert ownership, clear the
owner, and on a non-empty wait queue run the scan, assert the chosen
waiter is BLOCKED, detach it, mark it READY and append it to the
ready-queue tail.  The caller's own record is never written.  `none`
models a failed `assert`. -/
def pcp_release (cur : Process) (r : Resource) (rq : List Process) :
    Option (Process × Resource × List Process) :=
  if r.owner = some cur then
    match r.waitqueue with
    | [] => some (cur, { r with owner := none }, rq)
    | w :: ws =>
      let out := pcpRelScanAux ws [w] w 0
      if out.2.1.status = Status.blocked then
        some (cur, { r with owner := none, waitqueue := out.1.eraseIdx out.2.2 },
              rq ++ [{ out.2.1 with status := Status.ready }])
      else none
  else none

/-! ## Priority-Inheritance Protocol -/

/-- `pip_acquire` (pa2.c lines 566-585): on a free resource take
ownership with no priority change; on a taken resource block the caller,
raise the owner's priority to the caller's exactly when
`current->prio > r->owner->prio`, and append the caller to the wait
queue. -/
def pip_acquire (cur : Process) (r : Resource) : Bool × Process × Resource :=
  match r.owner with
  | none => (true, cur, { r with owner := some cur })
  | some o =>
    let cur' := { cur with status := Status.blocked }
    let o' := if o.prio < cur.prio then { o with prio := cur.prio } else o
    (false, cur', { r with owner := some o', waitqueue := r.waitqueue ++ [cur'] })

/-- The wait-queue scan of `pip_release` (pa2.c lines 599-606): textually
the same loop as the one in `pcp_release`. -/
def pipRelScanAux (todo : List Process) (done : List Process) (w : Process)
    (i : Nat) : List Process × Process × Nat :=
  match todo with
  | [] => (done, w, i)
  | t :: rest =>
    if w.prio < t.prio then
      let t' := { t with prio := t.prio_orig }
      pipRelScanAux rest (done ++ [t']) t' done.length
    else
      pipRelScanAux rest (done ++ [t]) w i

/-- `pip_release` (pa2.c lines 587-613): textually the same body as
`pcp_release`. -/
def pip_release (cur : Process) (r : Resource) (rq : List Process) :
    Option (Process × Resource × List Process) :=
  if r.owner = some cur then
    match r.waitqueue with
    | [] => some (cur, { r with owner := none }, rq)
    | w :: ws =>
      let out := pipRelScanAux ws [w] w 0
      if out.2.1.status = Status.blocked then
        some (cur, { r with owner := none, waitqueue := out.1.eraseIdx out.2.2 },
              rq ++ [{ out.2.1 with status := Status.ready }])
      else none
  else none

/-! ## Simulation driver -/

/-- Modelled from the spec: the driving simulation loop is an external
collaborator not under the sources; per §2 it calls `schedule()` once per
tick to pick the running process and advances that process's age by one.
`driverRun` records the pid run at each tick and stops at quiescence
(`schedule()` returning no process). -/
def driverRun (sched : SchedState → SchedState) : Nat → SchedState → List Nat
  | 0, _ => []
  | n + 1, s =>
    let s' := sched s
    match s'.current with
    | none => []
    | some p => p.pid :: driverRun sched n ⟨some { p with age := p.age + 1 }, s'.readyqueue⟩

/-! ## Theorems -/

/-- C1: the claim says that whenever a live running process coexists with a
ready process of strictly smaller remaining time, `stcf_schedule` preempts
and selects a minimum-remaining ready process.  The code does not: at the
state below the running process has remaining time 3 while the only ready
process has remaining time 1 (lifespan 5, age 4), yet `stcf_schedule`
keeps the running process, because the preemption scan stores
`tmp->lifespan` (5) rather than the remaining time (1) into `min`. -/
theorem stcf_schedule_keeps_longer_process :
    stcf_schedule ⟨some ⟨0, Status.running, 2, 5, 0, 0⟩, [⟨1, Status.ready, 4, 5, 0, 0⟩]⟩
      = ⟨some ⟨0, Status.running, 2, 5, 0, 0⟩, [⟨1, Status.ready, 4, 5, 0, 0⟩]⟩ ∧
    (5 : Nat) - 4 < 5 - 2 := by
  constructor
  · rfl
  · decide

/-- C7: two processes A (pid 1) and B (pid 2), both of lifespan 3, arriving
in order A then B and using no resources: Round-Robin runs them in the order
A,B,A,B,A,B while FCFS runs them A,A,A,B,B,B (running the driver for 8 ticks
shows both simulations also quiesce after the 6 work ticks). -/
theorem rr_fcfs_interleave :
    driverRun rr_schedule 8 ⟨none, [⟨1, Status.ready, 0, 3, 0, 0⟩, ⟨2, Status.ready, 0, 3, 0, 0⟩]⟩
      = [1, 2, 1, 2, 1, 2] ∧
    driverRun fcfs_schedule 8 ⟨none, [⟨1, Status.ready, 0, 3, 0, 0⟩, ⟨2, Status.ready, 0, 3, 0, 0⟩]⟩
      = [1, 1, 1, 2, 2, 2] := by
  constructor <;> rfl

/-- C5: the default FCFS release, called by the owner: ownership is
cleared; if the wait list is empty nothing else changes, and if it is
non-empty exactly the earliest-inserted waiter is removed from the wait
list, becomes READY, is appended to the ready-queue tail, and the
resource's owner remains `none` (ownership is not transferred). -/
theorem fcfs_release_spec (cur : Process) (r : Resource) (rq : List Process)
    (hown : r.owner = some cur)
    (hblk : ∀ t ∈ r.waitqueue, t.status = Status.blocked) :
    (r.waitqueue = [] → fcfs_release cur r rq = some (cur, { r with owner := none }, rq)) ∧
    (∀ w ws, r.waitqueue = w :: ws →
      fcfs_release cur r rq
        = some (cur, ⟨none, ws⟩, rq ++ [{ w with status := Status.ready }])) := by
  constructor
  · intro hwq
    simp [fcfs_release, hown, hwq]
  · intro w ws hwq
    have hw : w.status = Status.blocked := hblk w (by rw [hwq]; exact List.mem_cons_self w ws)
    simp [fcfs_release, hown, hwq, hw]

/-- Witness for C5 at a concrete state: owner pid 0 releases a resource on
which pid 1 (blocked, priority 2) waits; pid 1 is promoted to READY at the
ready-queue tail and the owner field stays cleared. -/
theorem fcfs_release_spec_witness :
    ((Resource.mk (some ⟨0, Status.running, 0, 9, 1, 1⟩) [⟨1, Status.blocked, 0, 9, 2, 2⟩]).owner
        = some ⟨0, Status.running, 0, 9, 1, 1⟩) ∧
    fcfs_release ⟨0, Status.running, 0, 9, 1, 1⟩
        (Resource.mk (some ⟨0, Status.running, 0, 9, 1, 1⟩) [⟨1, Status.blocked, 0, 9, 2, 2⟩]) []
      = some (⟨0, Status.running, 0, 9, 1, 1⟩, ⟨none, []⟩, [⟨1, Status.ready, 0, 9, 2, 2⟩]) := by
  refine ⟨rfl, ?_⟩
  exact (fcfs_release_spec ⟨0, Status.running, 0, 9, 1, 1⟩
    (Resource.mk (some ⟨0, Status.running, 0, 9, 1, 1⟩) [⟨1, Status.blocked, 0, 9, 2, 2⟩]) []
    rfl (by decide)).2 ⟨1, Status.blocked, 0, 9, 2, 2⟩ [] rfl

/-- C6: PIP acquire on an already-owned resource: the call fails, the
caller becomes BLOCKED and is appended to the wait-list tail, and the
owner's priority is raised to exactly the caller's priority when the
caller's priority strictly exceeds the owner's, and left unchanged
otherwise. -/
theorem pip_acquire_inherits (cur o : Process) (r : Resource)
    (hown : r.owner = some o) :
    (pip_acquire cur r).1 = false ∧
    (pip_acquire cur r).2.1 = { cur with status := Status.blocked } ∧
    (pip_acquire cur r).2.2.waitqueue
      = r.waitqueue ++ [{ cur with status := Status.blocked }] ∧
    (o.prio < cur.prio →
      (pip_acquire cur r).2.2.owner = some { o with prio := cur.prio }) ∧
    (¬ o.prio < cur.prio → (pip_acquire cur r).2.2.owner = some o) := by
  refine ⟨?_, ?_, ?_, ?_, ?_⟩ <;>
    simp [pip_acquire, hown] <;> intro h <;> simp [h]

/-- Witness for C6: process H (priority 5) blocks on a resource held by L
(priority 1); L's priority rises to exactly 5. -/
theorem pip_acquire_inherits_witness :
    ((Resource.mk (some ⟨0, Status.ready, 0, 9, 1, 1⟩) []).owner
        = some ⟨0, Status.ready, 0, 9, 1, 1⟩) ∧
    ((1 : Nat) < 5 →
      (pip_acquire ⟨1, Status.running, 0, 9, 5, 5⟩
          (Resource.mk (some ⟨0, Status.ready, 0, 9, 1, 1⟩) [])).2.2.owner
        = some ⟨0, Status.ready, 0, 9, 5, 1⟩) := by
  refine ⟨rfl, ?_⟩
  intro h
  exact (pip_acquire_inherits ⟨1, Status.running, 0, 9, 5, 5⟩ ⟨0, Status.ready, 0, 9, 1, 1⟩
    (Resource.mk (some ⟨0, Status.ready, 0, 9, 1, 1⟩) []) rfl).2.2.2.1 h

/-- Helper: whatever `pcpRelScanAux` chooses is either the initial head
candidate (returned untouched) or some scanned element with its priority
reset in place to `prio_orig` at the moment it became the candidate. -/
lemma pcpRelScanAux_chosen (todo : List Process) : ∀ (done : List Process)
    (w : Process) (i : Nat),
    (pcpRelScanAux todo done w i).2.1 = w ∨
    ∃ t ∈ todo, (pcpRelScanAux todo done w i).2.1 = { t with prio := t.prio_orig } := by
  induction todo with
  | nil => intro done w i; left; rfl
  | cons t rest ih =>
    intro done w i
    by_cases h : w.prio < t.prio
    · rcases ih (done ++ [{ t with prio := t.prio_orig }]) { t with prio := t.prio_orig }
        done.length with h1 | ⟨u, hu, h2⟩
      · right
        exact ⟨t, List.mem_cons_self t rest, by simpa [pcpRelScanAux, h] using h1⟩
      · right
        exact ⟨u, List.mem_cons_of_mem t hu, by simpa [pcpRelScanAux, h] using h2⟩
    · rcases ih (done ++ [t]) w i with h1 | ⟨u, hu, h2⟩
      · left; simpa [pcpRelScanAux, h] using h1
      · right
        exact ⟨u, List.mem_cons_of_mem t hu, by simpa [pcpRelScanAux, h] using h2⟩

/-- C8: a PCP release by the owner never writes the releasing caller's own
record: whenever the release succeeds the caller comes back unchanged (in
particular its priority is not restored to `prio_orig`), and on an empty
wait list the release succeeds leaving the caller exactly as it was —
so a `MAX_PRIO` elevation persists across such a release. -/
theorem pcp_release_caller_frame (cur : Process) (r : Resource)
    (rq : List Process) (hown : r.owner = some cur) :
    (∀ out, pcp_release cur r rq = some out →
      out.1 = cur ∧ out.1.prio = cur.prio) ∧
    (r.waitqueue = [] →
      pcp_release cur r rq = some (cur, { r with owner := none }, rq)) := by
  constructor
  · intro out hout
    match hwq : r.waitqueue with
    | [] =>
      simp [pcp_release, hown, hwq] at hout
      simp [← hout]
    | w :: ws =>
      simp only [pcp_release, hown, if_pos rfl, hwq] at hout
      by_cases hb : (pcpRelScanAux ws [w] w 0).2.1.status = Status.blocked
      · simp [hb] at hout
        simp [← hout]
      · simp [hb] at hout
  · intro hwq
    simp [pcp_release, hown, hwq]

/-- Witness for C8: a caller elevated to priority 7 releases a resource
with an empty wait list; the release succeeds and the caller's record —
priority 7 included — is untouched. -/
theorem pcp_release_caller_frame_witness :
    ((Resource.mk (some ⟨0, Status.running, 0, 9, 7, 1⟩) []).owner
        = some ⟨0, Status.running, 0, 9, 7, 1⟩) ∧
    pcp_release ⟨0, Status.running, 0, 9, 7, 1⟩
        (Resource.mk (some ⟨0, Status.running, 0, 9, 7, 1⟩) []) []
      = some (⟨0, Status.running, 0, 9, 7, 1⟩, ⟨none, []⟩, []) := by
  refine ⟨rfl, ?_⟩
  exact (pcp_release_caller_frame ⟨0, Status.running, 0, 9, 7, 1⟩
    (Resource.mk (some ⟨0, Status.running, 0, 9, 7, 1⟩) []) [] rfl).2 rfl

/-- Helper for C10: the two wait-queue scans are the same function. -/
lemma pipRelScanAux_eq_pcp (todo : List Process) : ∀ (done : List Process)
    (w : Process) (i : Nat),
    pipRelScanAux todo done w i = pcpRelScanAux todo done w i := by
  induction todo with
  | nil => intro done w i; rfl
  | cons t rest ih =>
    intro done w i
    by_cases h : w.prio < t.prio <;>
      simp [pipRelScanAux, pcpRelScanAux, h, ih]

/-- C10: `pcp_release` and `pip_release` compute the identical state
transformation on every input (so in particular on every state satisfying
the owner precondition they clear ownership, choose the same waiter, apply
the same in-place priority resets and produce equal results): the two
inversion protocols differ only in their acquire operations. -/
theorem pcp_release_eq_pip_release :
    ∀ (cur : Process) (r : Resource) (rq : List Process),
      pcp_release cur r rq = pip_release cur r rq := by
  intro cur r rq
  simp only [pcp_release, pip_release, pipRelScanAux_eq_pcp]

/-- C3 counterexample: under PCP, releasing a resource whose wait list
holds the single waiter pid 1 with current priority 3 and base priority 1
promotes that waiter still carrying priority 3 — not its base priority 1
as the claim states (the in-place reset only fires when the scan replaces
the candidate, which never happens for the head). -/
theorem pcp_release_head_not_reset :
    pcp_release ⟨0, Status.running, 0, 9, 4, 4⟩
        (Resource.mk (some ⟨0, Status.running, 0, 9, 4, 4⟩) [⟨1, Status.blocked, 0, 9, 3, 1⟩]) []
      = some (⟨0, Status.running, 0, 9, 4, 4⟩, ⟨none, []⟩, [⟨1, Status.ready, 0, 9, 3, 1⟩]) ∧
    (⟨1, Status.ready, 0, 9, 3, 1⟩ : Process).prio
      ≠ (⟨1, Status.ready, 0, 9, 3, 1⟩ : Process).prio_orig := by
  constructor
  · rfl
  · decide

/-- C3 (amended): under PCP, acquiring a free resource succeeds and leaves
the caller's priority equal to `MAX_PRIO` (the elevated record is also the
stored owner); and a release by the owner on a non-empty wait list
promotes the scan's chosen waiter to READY at the ready-queue tail, where
the promoted waiter either is the head of the wait list with its priority
left unchanged, or has its priority equal to its base priority (the reset
fires exactly when the scan replaced its candidate). -/
theorem pcp_protocol_amended (M : Nat) (cur w : Process) (ws rq : List Process)
    (r : Resource) (hown : r.owner = some cur) (hwq : r.waitqueue = w :: ws)
    (hblk : ∀ t ∈ r.waitqueue, t.status = Status.blocked) :
    (∀ (c : Process) (r₀ : Resource), r₀.owner = none →
      (pcp_acquire M c r₀).1 = true ∧
      (pcp_acquire M c r₀).2.1.prio = M ∧
      (pcp_acquire M c r₀).2.2.owner = some (pcp_acquire M c r₀).2.1) ∧
    (∃ (q : Process) (rsrc : Resource), pcp_release cur r rq
        = some (cur, rsrc, rq ++ [{ q with status := Status.ready }]) ∧
      (q = w ∨ q.prio = q.prio_orig)) := by
  constructor
  · intro c r₀ h₀
    match hro : r₀.owner with
    | none => exact ⟨by simp [pcp_acquire, hro], by simp [pcp_acquire, hro],
        by simp [pcp_acquire, hro]⟩
    | some _ => rw [h₀] at hro; exact absurd hro (by simp)
  · have hq := pcpRelScanAux_chosen ws [w] w 0
    have hqb : (pcpRelScanAux ws [w] w 0).2.1.status = Status.blocked := by
      rcases hq with h1 | ⟨t, ht, h2⟩
      · rw [h1]
        exact hblk w (by rw [hwq]; exact List.mem_cons_self w ws)
      · rw [h2]
        exact hblk t (by rw [hwq]; exact List.mem_cons_of_mem w ht)
    refine ⟨(pcpRelScanAux ws [w] w 0).2.1,
      Resource.mk none
        ((pcpRelScanAux ws [w] w 0).1.eraseIdx (pcpRelScanAux ws [w] w 0).2.2),
      ?_, ?_⟩
    · simp [pcp_release, hown, hwq, hqb]
    · rcases hq with h1 | ⟨t, _, h2⟩
      · left; exact h1
      · right; rw [h2]

/-- Witness for C3's amended theorem: owner pid 0 releases a resource on
which pid 1 (blocked) waits; the amended conclusions hold at that state. -/
theorem pcp_protocol_amended_witness :
    ((Resource.mk (some ⟨0, Status.running, 0, 9, 4, 4⟩) [⟨1, Status.blocked, 0, 9, 3, 1⟩]).owner
        = some ⟨0, Status.running, 0, 9, 4, 4⟩) ∧
    ((∀ (c : Process) (r₀ : Resource), r₀.owner = none →
      (pcp_acquire 4 c r₀).1 = true ∧
      (pcp_acquire 4 c r₀).2.1.prio = 4 ∧
      (pcp_acquire 4 c r₀).2.2.owner = some (pcp_acquire 4 c r₀).2.1) ∧
    (∃ (q : Process) (rsrc : Resource), pcp_release ⟨0, Status.running, 0, 9, 4, 4⟩
          (Resource.mk (some ⟨0, Status.running, 0, 9, 4, 4⟩) [⟨1, Status.blocked, 0, 9, 3, 1⟩]) []
        = some (⟨0, Status.running, 0, 9, 4, 4⟩, rsrc, [] ++ [{ q with status := Status.ready }]) ∧
      (q = ⟨1, Status.blocked, 0, 9, 3, 1⟩ ∨ q.prio = q.prio_orig))) := by
  refine ⟨rfl, ?_⟩
  exact pcp_protocol_amended 4 ⟨0, Status.running, 0, 9, 4, 4⟩
    ⟨1, Status.blocked, 0, 9, 3, 1⟩ [] []
    (Resource.mk (some ⟨0, Status.running, 0, 9, 4, 4⟩) [⟨1, Status.blocked, 0, 9, 3, 1⟩])
    rfl rfl (by decide)

/-- Helper: writing index `i` and then erasing index `i` is the same as
erasing index `i` (the in-place `next->prio = next->prio_orig` followed by
`list_del_init(&next->list)` leaves no trace in the remaining queue). -/
lemma set_eraseIdx {α : Type} (l : List α) : ∀ (i : Nat) (x : α),
    (l.set i x).eraseIdx i = l.eraseIdx i := by
  induction l with
  | nil => intro i x; simp
  | cons a l ih =>
    intro i x
    cases i with
    | zero => rfl
    | succ i' => simp [List.set_cons_succ, List.eraseIdx_cons_succ, ih]

/-- Helper: the aging scan of `pa_schedule` increments every scanned
process's priority by exactly one, unconditionally: the accumulated queue
is the input queue with every priority bumped. -/
lemma paScanAux_acc (M : Nat) (todo : List Process) : ∀ (max : Nat)
    (acc : List Process) (best : Option (Process × Nat)),
    (paScanAux M todo max acc best).1
      = acc ++ todo.map (fun t => { t with prio := t.prio + 1 }) := by
  induction todo with
  | nil => intro max acc best; simp [paScanAux]
  | cons t rest ih =>
    intro max acc best
    by_cases h : max < t.prio + 1 ∧ t.prio + 1 < M <;>
      simp [paScanAux, h, ih]

/-- C2 counterexample: Priority+Aging at MAX_PRIO = 4 on the ready queue
[pid 1 (priority 0), pid 2 (priority 3)]: pid 1 is selected, and pid 2
remains in the ready queue with priority 4 = MAX_PRIO — contradicting the
claim that the per-tick increment keeps every remaining ready priority
strictly below MAX_PRIO (the bound only gates selection, not the
increment). -/
theorem pa_schedule_aging_unbounded :
    pa_schedule 4 ⟨none, [⟨1, Status.ready, 0, 5, 0, 0⟩, ⟨2, Status.ready, 0, 5, 3, 3⟩]⟩
      = some ⟨some ⟨1, Status.ready, 0, 5, 0, 0⟩, [⟨2, Status.ready, 0, 5, 4, 3⟩]⟩ ∧
    ¬ ((⟨2, Status.ready, 0, 5, 4, 3⟩ : Process).prio < 4) := by
  constructor
  · rfl
  · decide

/-- C2 (amended): on every tick on which `pa_schedule` completes, every
process remaining in the ready queue has its priority incremented by
exactly one — the new ready queue is the scanned queue with every priority
bumped by one and the selected element removed; the increment is not
bounded by `MAX_PRIO` (which only gates which process may be selected). -/
theorem pa_schedule_aging (M : Nat) (s s' : SchedState)
    (h : pa_schedule M s = some s') :
    ∃ i, s'.readyqueue
      = ((requeuedReady s).map (fun t => { t with prio := t.prio + 1 })).eraseIdx i := by
  rcases hrq : requeuedReady s with _ | ⟨t, rest⟩
  · refine ⟨0, ?_⟩
    simp only [pa_schedule, hrq] at h
    simp only [Option.some.injEq] at h
    rw [← h]
    rfl
  · simp only [pa_schedule, hrq] at h
    rcases hb : (paScanAux M (t :: rest) 0 [] none).2 with _ | ⟨p, i⟩
    · rw [hb] at h; simp at h
    · rw [hb] at h
      simp only [Option.some.injEq] at h
      refine ⟨i, ?_⟩
      rw [← h]
      show ((paScanAux M (t :: rest) 0 [] none).1.set i
          { p with prio := p.prio_orig }).eraseIdx i
        = ((t :: rest).map (fun t => { t with prio := t.prio + 1 })).eraseIdx i
      rw [set_eraseIdx, paScanAux_acc]
      rfl

/-- Witness for C2's amended theorem: at MAX_PRIO = 4 with the single
ready process pid 1 (priority 0), `pa_schedule` completes and the new
ready queue is the bumped queue with the selected element removed. -/
theorem pa_schedule_aging_witness :
    (pa_schedule 4 ⟨none, [⟨1, Status.ready, 0, 5, 0, 0⟩]⟩
      = some ⟨some ⟨1, Status.ready, 0, 5, 0, 0⟩, []⟩) ∧
    ∃ i, (SchedState.mk (some ⟨1, Status.ready, 0, 5, 0, 0⟩) []).readyqueue
      = ((requeuedReady ⟨none, [⟨1, Status.ready, 0, 5, 0, 0⟩]⟩).map
          (fun t => { t with prio := t.prio + 1 })).eraseIdx i := by
  refine ⟨rfl, ?_⟩
  exact pa_schedule_aging 4 ⟨none, [⟨1, Status.ready, 0, 5, 0, 0⟩]⟩
    ⟨some ⟨1, Status.ready, 0, 5, 0, 0⟩, []⟩ rfl

/-- Helper: once the aging scan has a candidate it always returns a
candidate. -/
lemma paScanAux_some (M : Nat) (todo : List Process) : ∀ (max : Nat)
    (acc : List Process) (p : Process) (i : Nat),
    ∃ q j, (paScanAux M todo max acc (some (p, i))).2 = some (q, j) := by
  induction todo with
  | nil => intro max acc p i; exact ⟨p, i, rfl⟩
  | cons t rest ih =>
    intro max acc p i
    by_cases h : max < t.prio + 1 ∧ t.prio + 1 < M
    · simpa [paScanAux, h] using
        ih (t.prio + 1) (acc ++ [{ t with prio := t.prio + 1 }])
          { t with prio := t.prio + 1 } acc.length
    · simpa [paScanAux, h] using
        ih max (acc ++ [{ t with prio := t.prio + 1 }]) p i

/-- Helper: started with running maximum 0 and no candidate, the aging
scan ends with no candidate exactly when every scanned process's
incremented priority reaches `MAX_PRIO` (an incremented priority is
positive, so the `> max` guard cannot be the reason while `max` is 0). -/
lemma paScanAux_none_iff (M : Nat) (todo : List Process) : ∀ (acc : List Process),
    (paScanAux M todo 0 acc none).2 = none ↔ ∀ t ∈ todo, M ≤ t.prio + 1 := by
  induction todo with
  | nil => intro acc; simp [paScanAux]
  | cons t rest ih =>
    intro acc
    by_cases h : t.prio + 1 < M
    · have hc : 0 < t.prio + 1 ∧ t.prio + 1 < M := ⟨Nat.succ_pos _, h⟩
      obtain ⟨q, j, hq⟩ := paScanAux_some M rest (t.prio + 1)
        (acc ++ [{ t with prio := t.prio + 1 }]) { t with prio := t.prio + 1 } acc.length
      constructor
      · intro hn
        exfalso
        rw [show (paScanAux M (t :: rest) 0 acc none).2
            = (paScanAux M rest (t.prio + 1) (acc ++ [{ t with prio := t.prio + 1 }])
                (some ({ t with prio := t.prio + 1 }, acc.length))).2
          from by simp [paScanAux, hc], hq] at hn
        exact Option.noConfusion hn
      · intro hall
        exact absurd h (Nat.not_lt.mpr (hall t (List.mem_cons_self t rest)))
    · rw [show (paScanAux M (t :: rest) 0 acc none).2
          = (paScanAux M rest 0 (acc ++ [{ t with prio := t.prio + 1 }]) none).2
        from by simp [paScanAux, h]]
      rw [ih]
      constructor
      · intro hall
        intro u hu
        rcases List.mem_cons.mp hu with rfl | hu
        · exact Nat.not_lt.mp h
        · exact hall u hu
      · intro hall u hu
        exact hall u (List.mem_cons_of_mem t hu)

/-- C9: with a non-empty scanned queue, `pa_schedule` reaches the `NULL`
dereference of `next->prio = next->prio_orig` (modelled as `none`) exactly
when every scanned process's incremented priority is at least `MAX_PRIO`;
equivalently, safety of `pa_schedule` requires some scanned process's
incremented priority to be strictly below `MAX_PRIO`. -/
theorem pa_schedule_null_deref (M : Nat) (s : SchedState)
    (h : requeuedReady s ≠ []) :
    pa_schedule M s = none ↔ ∀ p ∈ requeuedReady s, M ≤ p.prio + 1 := by
  rcases hrq : requeuedReady s with _ | ⟨t, rest⟩
  · exact absurd hrq h
  · have key : pa_schedule M s = none
        ↔ (paScanAux M (t :: rest) 0 [] none).2 = none := by
      simp only [pa_schedule, hrq]
      rcases hb : (paScanAux M (t :: rest) 0 [] none).2 with _ | ⟨p, i⟩
      · simp [hb]
      · simp [hb]
    rw [key]
    exact paScanAux_none_iff M (t :: rest) []

/-- Witness for C9: at MAX_PRIO = 4 with the single ready process pid 1 at
priority 3 (incremented priority 4), `pa_schedule` crashes (`none`). -/
theorem pa_schedule_null_deref_witness :
    (requeuedReady ⟨none, [⟨1, Status.ready, 0, 5, 3, 3⟩]⟩ ≠ []) ∧
    pa_schedule 4 ⟨none, [⟨1, Status.ready, 0, 5, 3, 3⟩]⟩ = none := by
  refine ⟨by decide, ?_⟩
  exact (pa_schedule_null_deref 4 ⟨none, [⟨1, Status.ready, 0, 5, 3, 3⟩]⟩
    (by decide)).mpr (by decide)

/-- C4 counterexample: two ready processes pid 1 and pid 2, both at
priority 2: the claim says the first-encountered (pid 1) is selected, but
`prio_schedule` selects pid 2 — the scan's `tmp->prio >= max` comparison
replaces the candidate on ties, so the last-encountered wins. -/
theorem prio_schedule_tie_breaks_last :
    prio_schedule ⟨none, [⟨1, Status.ready, 0, 5, 2, 2⟩, ⟨2, Status.ready, 0, 5, 2, 2⟩]⟩
      = ⟨some ⟨2, Status.ready, 0, 5, 2, 2⟩, [⟨1, Status.ready, 0, 5, 2, 2⟩]⟩ ∧
    (⟨2, Status.ready, 0, 5, 2, 2⟩ : Process) ≠ ⟨1, Status.ready, 0, 5, 2, 2⟩ := by
  constructor
  · rfl
  · decide

/-- Helper: behaviour of the Priority pick scan from an established
candidate `p` (recorded at index `k`, with running maximum `p.prio`) while
the position counter stands at `c`: the scan returns a candidate of
maximal priority, and every element strictly after the returned index has
strictly smaller priority (the `>=` comparison makes later ties win). -/
lemma prioScanAux_go (todo : List Process) : ∀ (p : Process) (k c : Nat),
    ∃ q m, prioScanAux todo p.prio (some (p, k)) c = some (q, m) ∧
      p.prio ≤ q.prio ∧ (∀ t ∈ todo, t.prio ≤ q.prio) ∧
      ((q = p ∧ m = k ∧ ∀ t ∈ todo, t.prio < p.prio) ∨
       (∃ n, todo.get? n = some q ∧ m = c + n ∧
         ∀ j u, n < j → todo.get? j = some u → u.prio < q.prio)) := by
  induction todo with
  | nil =>
    intro p k c
    exact ⟨p, k, rfl, le_refl _, by simp, Or.inl ⟨rfl, rfl, by simp⟩⟩
  | cons t rest ih =>
    intro p k c
    by_cases h : p.prio ≤ t.prio
    · obtain ⟨q, m, heq, hle, hall, hcase⟩ := ih t c (c + 1)
      refine ⟨q, m, by simpa [prioScanAux, h] using heq, le_trans h hle, ?_, ?_⟩
      · intro u hu
        rcases List.mem_cons.mp hu with rfl | hu
        · exact hle
        · exact hall u hu
      · right
        rcases hcase with ⟨hq, hm, hrest⟩ | ⟨n, hn, hm, hafter⟩
        · refine ⟨0, by simp [hq], by omega, ?_⟩
          intro j u hj hju
          cases j with
          | zero => omega
          | succ j' =>
            rw [List.get?_cons_succ] at hju
            have : u ∈ rest := List.get?_mem hju
            rw [hq]
            exact hrest u this
        · refine ⟨n + 1, by simpa using hn, by omega, ?_⟩
          intro j u hj hju
          cases j with
          | zero => omega
          | succ j' =>
            rw [List.get?_cons_succ] at hju
            exact hafter j' u (by omega) hju
    · obtain ⟨q, m, heq, hle, hall, hcase⟩ := ih p k (c + 1)
      have ht : t.prio < p.prio := Nat.not_le.mp h
      refine ⟨q, m, by simpa [prioScanAux, h] using heq, hle, ?_, ?_⟩
      · intro u hu
        rcases List.mem_cons.mp hu with rfl | hu
        · exact le_trans (le_of_lt ht) hle
        · exact hall u hu
      · rcases hcase with ⟨h1, h2, h3⟩ | ⟨n, hn, hm, hafter⟩
        · left
          refine ⟨h1, h2, ?_⟩
          intro u hu
          rcases List.mem_cons.mp hu with rfl | hu
          · exact ht
          · exact h3 u hu
        · right
          refine ⟨n + 1, by simpa using hn, by omega, ?_⟩
          intro j u hj hju
          cases j with
          | zero => omega
          | succ j' =>
            rw [List.get?_cons_succ] at hju
            exact hafter j' u (by omega) hju

/-- Helper: on a non-empty queue, the Priority pick scan returns an
element of the queue of maximal priority such that every element strictly
after it has strictly smaller priority. -/
lemma prioScan_spec (l : List Process) (hl : l ≠ []) :
    ∃ q i, prioScanAux l 0 none 0 = some (q, i) ∧
      l.get? i = some q ∧ (∀ t ∈ l, t.prio ≤ q.prio) ∧
      ∀ j u, i < j → l.get? j = some u → u.prio < q.prio := by
  match l, hl with
  | t :: rest, _ =>
    obtain ⟨q, m, heq, hle, hall, hcase⟩ := prioScanAux_go rest t 0 1
    have hstep : prioScanAux (t :: rest) 0 none 0
        = prioScanAux rest t.prio (some (t, 0)) 1 := by
      simp [prioScanAux]
    refine ⟨q, m, by rw [hstep]; exact heq, ?_, ?_, ?_⟩
    · rcases hcase with ⟨hq, hm, _⟩ | ⟨n, hn, hm, _⟩
      · rw [hq, hm]; rfl
      · rw [show m = n + 1 from by omega]
        simpa using hn
    · intro u hu
      rcases List.mem_cons.mp hu with rfl | hu
      · exact hle
      · exact hall u hu
    · rcases hcase with ⟨hq, hm, hrest⟩ | ⟨n, _, hm, hafter⟩
      · intro j u hj hju
        cases j with
        | zero => omega
        | succ j' =>
          rw [List.get?_cons_succ] at hju
          rw [hq]
          exact hrest u (List.get?_mem hju)
      · intro j u hj hju
        cases j with
        | zero => omega
        | succ j' =>
          rw [List.get?_cons_succ] at hju
          exact hafter j' u (by omega) hju

/-- C4 (amended): on every tick with a non-empty ready queue after the
still-runnable current process has been requeued at the tail,
`prio_schedule` selects a ready process with the highest priority and
removes it from the queue; when several ready processes share that highest
priority, the one encountered LAST in queue order is selected (every
process at a strictly later queue position than the selected one has a
strictly smaller priority). -/
theorem prio_schedule_picks_last_max (s : SchedState)
    (h : requeuedReady s ≠ []) :
    ∃ q i, (requeuedReady s).get? i = some q ∧
      prio_schedule s = ⟨some q, (requeuedReady s).eraseIdx i⟩ ∧
      (∀ t ∈ requeuedReady s, t.prio ≤ q.prio) ∧
      ∀ j u, i < j → (requeuedReady s).get? j = some u → u.prio < q.prio := by
  obtain ⟨q, i, heq, hget, hall, hafter⟩ := prioScan_spec (requeuedReady s) h
  exact ⟨q, i, hget, by simp [prio_schedule, heq], hall, hafter⟩

/-- Witness for C4's amended theorem at the concrete ready queue
[pid 1 (priority 1), pid 2 (priority 3)]. -/
theorem prio_schedule_picks_last_max_witness :
    (requeuedReady ⟨none, [⟨1, Status.ready, 0, 5, 1, 1⟩, ⟨2, Status.ready, 0, 5, 3, 3⟩]⟩ ≠ []) ∧
    (∃ q i, (requeuedReady ⟨none, [⟨1, Status.ready, 0, 5, 1, 1⟩, ⟨2, Status.ready, 0, 5, 3, 3⟩]⟩).get? i
        = some q ∧
      prio_schedule ⟨none, [⟨1, Status.ready, 0, 5, 1, 1⟩, ⟨2, Status.ready, 0, 5, 3, 3⟩]⟩
        = ⟨some q, (requeuedReady ⟨none, [⟨1, Status.ready, 0, 5, 1, 1⟩, ⟨2, Status.ready, 0, 5, 3, 3⟩]⟩).eraseIdx i⟩ ∧
      (∀ t ∈ requeuedReady ⟨none, [⟨1, Status.ready, 0, 5, 1, 1⟩, ⟨2, Status.ready, 0, 5, 3, 3⟩]⟩,
        t.prio ≤ q.prio) ∧
      ∀ j u, i < j →
        (requeuedReady ⟨none, [⟨1, Status.ready, 0, 5, 1, 1⟩, ⟨2, Status.ready, 0, 5, 3, 3⟩]⟩).get? j
          = some u → u.prio < q.prio) := by
  refine ⟨by decide, ?_⟩
  exact prio_schedule_picks_last_max
    ⟨none, [⟨1, Status.ready, 0, 5, 1, 1⟩, ⟨2, Status.ready, 0, 5, 3, 3⟩]⟩ (by decide)

end Pa2
